import Mathlib

/-!
A verification development for the `nlp` library (`src/lib.rs`, `src/metrics.rs`,
`src/graphemes_struct.rs`).

The Rust `Graphemes` container is a plain vector of grapheme strings; all of the
library's algorithms use it only through length queries, indexed reads, pushes and
appends, so a grapheme sequence is embedded as a Lean `List` over an arbitrary
element type with decidable equality (`List String` in the concrete instances:
each element one grapheme, `" "` being the space grapheme).

Loops of the source that are not structurally recursive (the DP fill, the
backtrace `while let`, the recursive segmenter) are embedded with an explicit
fuel argument that bounds the number of iterations; fuel-irrelevance lemmas show
the chosen fuel is always sufficient, so the embedded functions compute exactly
what the source loops compute, and stay executable by the kernel.
-/

set_option maxHeartbeats 1000000

set_option linter.unusedSectionVars false

set_option linter.unusedVariables false

/-- `type Coordinate = (usize, usize);` from `src/lib.rs`: a (row, col) pair
indexing a cell of the DP matrix. -/
abbrev Coordinate : Type := Nat × Nat

/-- The substitution term of the recurrence in `levenshtein_distance_recurrence_matrix`
(`src/lib.rs` line 171): `if graphemes1[row-1] == graphemes2[col-1] {0} else {sub_cost}`,
here with `i = row - 1`, `j = col - 1`.  Indexing is embedded with the total `l[i]?`;
at every call site `i < s1.length` and `j < s2.length`, where it agrees with the
panicking Rust index. -/
def substitutionCost {α : Type} [DecidableEq α] (s1 s2 : List α) (sub_cost i j : Nat) : Nat :=
  if s1[i]? = s2[j]? then 0 else sub_cost

/-- Cell `(i, j)` of the Wagner–Fischer matrix that
`levenshtein_distance_recurrence_matrix` (`src/lib.rs` lines 153-174) fills:
border row `0` is `0..n`, border column `0` is `0..m`, and each interior cell is
`min(min(matrix[row-1][col]+1, matrix[row][col-1]+1), matrix[row-1][col-1] + sub)`.
The row-major fill of the source only ever reads cells with a strictly smaller
`row + col`, so the matrix is equivalently this recursion; `fuel ≥ i + j` bounds
the recursion depth (`levenshteinCellFuel_eq` shows any sufficient fuel gives the
same value). -/
def levenshteinCellFuel {α : Type} [DecidableEq α] (s1 s2 : List α) (sub_cost : Nat) :
    Nat → Nat → Nat → Nat
  | 0, _, _ => 0
  | _ + 1, 0, j => j
  | _ + 1, i + 1, 0 => i + 1
  | fuel + 1, i + 1, j + 1 =>
    min (min (levenshteinCellFuel s1 s2 sub_cost fuel i (j + 1) + 1)
             (levenshteinCellFuel s1 s2 sub_cost fuel (i + 1) j + 1))
        (levenshteinCellFuel s1 s2 sub_cost fuel i j + substitutionCost s1 s2 sub_cost i j)

/-- `levenshtein_distance_recurrence_matrix` (`src/lib.rs` lines 153-174), as the
function sending an index pair to the corresponding cell of the returned matrix. -/
def levenshtein_distance_recurrence_matrix {α : Type} [DecidableEq α]
    (s1 s2 : List α) (sub_cost : Nat) (row col : Nat) : Nat :=
  levenshteinCellFuel s1 s2 sub_cost (row + col) row col

/-- `levenshtein_distance` (`src/lib.rs` lines 28-31): cell
`[graphemes1.len()][graphemes2.len()]` of the recurrence matrix. -/
def levenshtein_distance {α : Type} [DecidableEq α] (s1 s2 : List α) (sub_cost : Nat) : Nat :=
  levenshtein_distance_recurrence_matrix s1 s2 sub_cost s1.length s2.length

variable {α : Type} [DecidableEq α]

/-- Cost of one alignment (edit script) transforming the first sequence into the
second, built right to left: `ins` inserts an element of the target (unit cost),
`del` deletes an element of the source (unit cost), `subst` aligns a source
element with a target element (cost `sub_cost`, or `0` when they are equal).
`EditCost c s1 s2 n` holds exactly when some such script of total cost `n`
transforms `s1` into `s2`. -/
inductive EditCost (c : Nat) : List α → List α → Nat → Prop
  | nil : EditCost c [] [] 0
  | ins (xs ys : List α) (y : α) (n : Nat) :
      EditCost c xs ys n → EditCost c xs (ys ++ [y]) (n + 1)
  | del (xs ys : List α) (x : α) (n : Nat) :
      EditCost c xs ys n → EditCost c (xs ++ [x]) ys (n + 1)
  | subst (xs ys : List α) (x y : α) (n : Nat) :
      EditCost c xs ys n → EditCost c (xs ++ [x]) (ys ++ [y]) (n + if x = y then 0 else c)

/-- The cost cells of the `recurrence_matrix` that `alignment_matrix`
(`src/lib.rs` lines 188-223) fills alongside the backtrace map.  The interior
cell starts from the insertion candidate `matrix[row][col-1] + 1`, replaces it
by the deletion candidate `matrix[row-1][col] + 1` when strictly smaller, then
by the substitution candidate when strictly smaller still — the chained
comparisons of the source.  `fuel` as in `levenshteinCellFuel`. -/
def alignmentCellFuel (s1 s2 : List α) (sub_cost : Nat) : Nat → Nat → Nat → Nat
  | 0, _, _ => 0
  | _ + 1, 0, j => j
  | _ + 1, i + 1, 0 => i + 1
  | fuel + 1, i + 1, j + 1 =>
    let insCand := alignmentCellFuel s1 s2 sub_cost fuel (i + 1) j + 1
    let delCand := alignmentCellFuel s1 s2 sub_cost fuel i (j + 1) + 1
    let subCand := alignmentCellFuel s1 s2 sub_cost fuel i j +
      substitutionCost s1 s2 sub_cost i j
    let m1 := if delCand < insCand then delCand else insCand
    if subCand < m1 then subCand else m1

/-- Cell `(row, col)` of the cost matrix maintained inside `alignment_matrix`. -/
def alignment_matrix_cost (s1 s2 : List α) (sub_cost row col : Nat) : Nat :=
  alignmentCellFuel s1 s2 sub_cost (row + col) row col

/-- The predecessor coordinate recorded by `alignment_matrix` (`src/lib.rs`
lines 196-221) for each in-range coordinate: border cells point to the adjacent
border cell; an interior cell starts with the insertion predecessor
`(row, col-1)`, switches to the deletion predecessor `(row-1, col)` when its
candidate cost is strictly smaller, then to the diagonal predecessor
`(row-1, col-1)` when its candidate cost is strictly smaller still.
The origin has no entry. -/
def alignment_matrix_pred (s1 s2 : List α) (sub_cost : Nat) : Coordinate → Option Coordinate
  | (0, 0) => none
  | (row + 1, 0) => some (row, 0)
  | (0, col + 1) => some (0, col)
  | (row + 1, col + 1) =>
    let insCand := alignment_matrix_cost s1 s2 sub_cost (row + 1) col + 1
    let delCand := alignment_matrix_cost s1 s2 sub_cost row (col + 1) + 1
    let subCand := alignment_matrix_cost s1 s2 sub_cost row col +
      substitutionCost s1 s2 sub_cost row col
    let m1 := if delCand < insCand then delCand else insCand
    if subCand < m1 then some (row, col)
    else if delCand < insCand then some (row, col + 1)
    else some (row + 1, col)

/-- `alignment_matrix` (`src/lib.rs` lines 188-223) as the backtrace map it
returns: its keys are exactly the in-range coordinates other than the origin
`(0, 0)`; `HashMap::get` on anything else yields `None`. -/
def alignment_matrix (s1 s2 : List α) (sub_cost : Nat) (p : Coordinate) : Option Coordinate :=
  if p.1 ≤ s1.length ∧ p.2 ≤ s2.length then alignment_matrix_pred s1 s2 sub_cost p else none

/-- `backtrace_alignment_matrix` (`src/lib.rs` lines 177-186): follow the
recorded predecessors from `start_coord`, pushing each visited coordinate, and
push the final coordinate once the map has no entry for it.  `fuel` bounds the
`while let` loop; every recorded predecessor strictly decreases `row + col`, so
any fuel of at least the starting `row + col` reproduces the loop exactly. -/
def backtrace_alignment_matrix (start_coord : Coordinate)
    (backtrace : Coordinate → Option Coordinate) : Nat → List Coordinate
  | 0 => [start_coord]
  | fuel + 1 =>
    match backtrace start_coord with
    | none => [start_coord]
    | some next_coord => start_coord :: backtrace_alignment_matrix next_coord backtrace fuel

/-- `alignment_path` (`src/lib.rs` lines 49-55): backtrace from
`(len1, len2)`, then reverse so the path runs origin to terminal. -/
def alignment_path (s1 s2 : List α) (sub_cost : Nat) : List Coordinate :=
  (backtrace_alignment_matrix (s1.length, s2.length) (alignment_matrix s1 s2 sub_cost)
    (s1.length + s2.length)).reverse

/-- One iteration of the reconstruction loop of `alignment_strings`
(`src/lib.rs` lines 86-101): given the previous and the current path
coordinate, the pair of elements pushed onto the two output sequences — the
original elements on a diagonal step, the `ins_del_char` placeholder on the
side that consumes nothing on a column-only or row-only step.  `none` embeds
the `panic!()` branch (an out-of-range index, which would equally panic, also
maps to `none`). -/
def emitPair (s1 s2 : List α) (ins_del_char : α) (prev cur : Coordinate) : Option (α × α) :=
  if cur.1 ≠ 0 ∧ cur.1 - 1 = prev.1 ∧ cur.2 ≠ 0 ∧ cur.2 - 1 = prev.2 then
    match s1[cur.1 - 1]?, s2[cur.2 - 1]? with
    | some a, some b => some (a, b)
    | _, _ => none
  else if cur.1 = prev.1 ∧ cur.2 ≠ 0 ∧ cur.2 - 1 = prev.2 then
    match s2[cur.2 - 1]? with
    | some b => some (ins_del_char, b)
    | none => none
  else if cur.1 ≠ 0 ∧ cur.1 - 1 = prev.1 ∧ cur.2 = prev.2 then
    match s1[cur.1 - 1]? with
    | some a => some (a, ins_del_char)
    | none => none
  else none

/-- The walk of `alignment_strings` over consecutive path coordinates: the
emitted pairs in order, or `none` as soon as one step panics. -/
def alignmentSteps (s1 s2 : List α) (ins_del_char : α) :
    Coordinate → List Coordinate → Option (List (α × α))
  | _, [] => some []
  | prev, cur :: rest =>
    match emitPair s1 s2 ins_del_char prev cur,
        alignmentSteps s1 s2 ins_del_char cur rest with
    | some p, some tl => some (p :: tl)
    | _, _ => none

/-- `alignment_strings` (`src/lib.rs` lines 75-103): walk the alignment path,
pushing one element onto each of the two outputs per step; the two outputs are
the firsts and the seconds of the emitted pairs.  `none` embeds the `panic!()`
branch.  (The backtrace of an empty input pair is `[(0, 0)]`, never `[]`, so
the `is_empty` early return of the source is kept only for fidelity.) -/
def alignment_strings (s1 s2 : List α) (sub_cost : Nat) (ins_del_char : α) :
    Option (List α × List α) :=
  match alignment_path s1 s2 sub_cost with
  | [] => some ([], [])
  | p0 :: rest =>
    match alignmentSteps s1 s2 ins_del_char p0 rest with
    | some ps => some (ps.map Prod.fst, ps.map Prod.snd)
    | none => none

/-- The three legal step shapes of the reconstruction and the pair each emits:
a diagonal step emits the two original elements, a column-only step emits the
placeholder paired with the second sequence's element, a row-only step emits
the first sequence's element paired with the placeholder. -/
def StepRel (s1 s2 : List α) (ins_del_char : α)
    (st : Coordinate × Coordinate) (em : α × α) : Prop :=
  (st.1.1 + 1 = st.2.1 ∧ st.1.2 + 1 = st.2.2 ∧
    s1[st.1.1]? = some em.1 ∧ s2[st.1.2]? = some em.2) ∨
  (st.1.1 = st.2.1 ∧ st.1.2 + 1 = st.2.2 ∧
    em.1 = ins_del_char ∧ s2[st.1.2]? = some em.2) ∨
  (st.1.1 + 1 = st.2.1 ∧ st.1.2 = st.2.2 ∧
    s1[st.1.1]? = some em.1 ∧ em.2 = ins_del_char)

/-- Cost charged to one aligned position by the round-trip accounting: `1` when
either side is the placeholder, else the substitution cost when the two sides
differ, else `0`. -/
def pairCost (ins_del_char : α) (sub_cost : Nat) (em : α × α) : Nat :=
  if em.1 = ins_del_char ∨ em.2 = ins_del_char then 1
  else if em.1 ≠ em.2 then sub_cost else 0

/-- Number of aligned positions at which either side is the placeholder. -/
def placeholderCount (ins_del_char : α) (ps : List (α × α)) : Nat :=
  (ps.filter fun em => em.1 = ins_del_char ∨ em.2 = ins_del_char).length

/-- Number of aligned positions at which the two sides differ and neither is
the placeholder. -/
def mismatchCount (ins_del_char : α) (ps : List (α × α)) : Nat :=
  (ps.filter fun em => em.1 ≠ ins_del_char ∧ em.2 ≠ ins_del_char ∧ em.1 ≠ em.2).length

/-- The prefix-length scan of `max_match` (`src/lib.rs` lines 127-137): it
tries candidate prefix lengths `k, k-1, ..., 1` in that order and returns the
first (hence longest) length whose prefix is a dictionary member; `none` when
no prefix of any length is in the dictionary.  The `HashSet` dictionary is
embedded as a list used only for membership. -/
def firstMatchLen (dictionary : List (List α)) (sentence : List α) : Nat → Option Nat
  | 0 => none
  | k + 1 =>
    if sentence.take (k + 1) ∈ dictionary then some (k + 1)
    else firstMatchLen dictionary sentence k

/-- `max_match` (`src/lib.rs` lines 123-146) with an explicit recursion bound:
empty input yields empty output; otherwise the longest dictionary prefix (or,
when none matches, the single first grapheme) becomes `first_word`, a single
`space` element is pushed when the remainder is non-empty, and the recursive
segmentation of the remainder is appended.  Each recursive call strictly
shortens the sentence, so `fuel = sentence.length` reproduces the source
exactly (`maxMatchFuel_irrel`). -/
def maxMatchFuel (space : α) (dictionary : List (List α)) : Nat → List α → List α
  | 0, _ => []
  | fuel + 1, sentence =>
    if sentence = [] then []
    else
      match firstMatchLen dictionary sentence sentence.length with
      | some k =>
        (sentence.take k ++ if sentence.drop k = [] then [] else [space]) ++
          maxMatchFuel space dictionary fuel (sentence.drop k)
      | none =>
        (sentence.take 1 ++ if sentence.drop 1 = [] then [] else [space]) ++
          maxMatchFuel space dictionary fuel (sentence.drop 1)

/-- `max_match` on grapheme sequences, with the space grapheme `" "` of the
source as separator. -/
def max_match (dictionary : List (List String)) (sentence : List String) : List String :=
  maxMatchFuel " " dictionary sentence.length sentence

/-- The dictionary of the repository's `max_match_test` (`src/lib.rs` lines
332-339), as grapheme sequences. -/
def chineseDictionary : List (List String) :=
  [["他"], ["特", "别"], ["喜", "欢"], ["北", "京", "烤", "鸭"]]

/-- `Graphemes::split` (`src/graphemes_struct.rs` lines 52-55) applied to the
space grapheme: Rust's `slice::split` yields the (possibly empty) subslices
between delimiter occurrences — `n` delimiters yield `n + 1` subslices, and an
empty slice yields one empty subslice. -/
def splitOnSpace : List String → List (List String)
  | [] => [[]]
  | g :: rest =>
    if g = " " then [] :: splitOnSpace rest
    else
      match splitOnSpace rest with
      | w :: ws => (g :: w) :: ws
      | [] => [[g]]

/-- `word_error_rate` (`src/metrics.rs` lines 80-84): the Levenshtein distance
(substitution cost 1) between the space-split word lists of the two sentences,
divided by the word count of the actual sentence.  The `f64` division of the
source is modelled in `ℚ`; the denominator is in fact never zero
(`c8_wer_denominator_never_zero`), so the two divisions agree on every input. -/
def word_error_rate (actual_sentence predict_sentence : List String) : ℚ :=
  (levenshtein_distance (splitOnSpace actual_sentence)
      (splitOnSpace predict_sentence) 1 : ℚ) /
    ((splitOnSpace actual_sentence).length : ℚ)

/-- `word_accuracy` (`src/metrics.rs` lines 110-112). -/
def word_accuracy (actual_sentence predict_sentence : List String) : ℚ :=
  1 - word_error_rate actual_sentence predict_sentence

theorem levenshteinCellFuel_eq (s1 s2 : List α) (c : Nat) :
    ∀ fuel i j, i + j ≤ fuel →
      levenshteinCellFuel s1 s2 c fuel i j = levenshtein_distance_recurrence_matrix s1 s2 c i j := by
  intro fuel
  induction fuel using Nat.strong_induction_on with
  | _ fuel ih =>
    intro i j hij
    match fuel, i, j, hij with
    | 0, 0, 0, _ => rfl
    | 0, 0, j + 1, h => omega
    | 0, i + 1, j, h => omega
    | f + 1, 0, 0, _ => rfl
    | f + 1, 0, j + 1, _ => rfl
    | f + 1, i + 1, 0, _ => rfl
    | f + 1, i + 1, j + 1, hij =>
      have hf : i + 1 + (j + 1) ≤ f + 1 := hij
      have e1 := ih f (by omega) i (j + 1) (by omega)
      have e2 := ih f (by omega) (i + 1) j (by omega)
      have e3 := ih f (by omega) i j (by omega)
      have e4 := ih (i + 1 + j) (by omega) i (j + 1) (by omega)
      have e5 := ih (i + 1 + j) (by omega) (i + 1) j (by omega)
      have e6 := ih (i + 1 + j) (by omega) i j (by omega)
      show min (min (levenshteinCellFuel s1 s2 c f i (j + 1) + 1)
             (levenshteinCellFuel s1 s2 c f (i + 1) j + 1))
          (levenshteinCellFuel s1 s2 c f i j + substitutionCost s1 s2 c i j)
        = min (min (levenshteinCellFuel s1 s2 c (i + 1 + j) i (j + 1) + 1)
             (levenshteinCellFuel s1 s2 c (i + 1 + j) (i + 1) j + 1))
          (levenshteinCellFuel s1 s2 c (i + 1 + j) i j + substitutionCost s1 s2 c i j)
      rw [e1, e2, e3, e4, e5, e6]

theorem lev_matrix_zero_left (s1 s2 : List α) (c j : Nat) :
    levenshtein_distance_recurrence_matrix s1 s2 c 0 j = j := by
  cases j <;> rfl

theorem lev_matrix_zero_right (s1 s2 : List α) (c i : Nat) :
    levenshtein_distance_recurrence_matrix s1 s2 c i 0 = i := by
  cases i <;> rfl

theorem lev_matrix_succ (s1 s2 : List α) (c i j : Nat) :
    levenshtein_distance_recurrence_matrix s1 s2 c (i + 1) (j + 1) =
      min (min (levenshtein_distance_recurrence_matrix s1 s2 c i (j + 1) + 1)
               (levenshtein_distance_recurrence_matrix s1 s2 c (i + 1) j + 1))
          (levenshtein_distance_recurrence_matrix s1 s2 c i j + substitutionCost s1 s2 c i j) := by
  have e1 := levenshteinCellFuel_eq s1 s2 c (i + 1 + j) i (j + 1) (by omega)
  have e2 := levenshteinCellFuel_eq s1 s2 c (i + 1 + j) (i + 1) j (by omega)
  have e3 := levenshteinCellFuel_eq s1 s2 c (i + 1 + j) i j (by omega)
  show min (min (levenshteinCellFuel s1 s2 c (i + 1 + j) i (j + 1) + 1)
             (levenshteinCellFuel s1 s2 c (i + 1 + j) (i + 1) j + 1))
          (levenshteinCellFuel s1 s2 c (i + 1 + j) i j + substitutionCost s1 s2 c i j) = _
  rw [e1, e2, e3]

/-- One step right in the matrix costs at most one more (an insertion). -/
theorem lev_matrix_le_ins (s1 s2 : List α) (c i j : Nat) :
    levenshtein_distance_recurrence_matrix s1 s2 c i (j + 1) ≤
      levenshtein_distance_recurrence_matrix s1 s2 c i j + 1 := by
  cases i with
  | zero => rw [lev_matrix_zero_left, lev_matrix_zero_left]
  | succ i => rw [lev_matrix_succ]; omega

/-- One step down in the matrix costs at most one more (a deletion). -/
theorem lev_matrix_le_del (s1 s2 : List α) (c i j : Nat) :
    levenshtein_distance_recurrence_matrix s1 s2 c (i + 1) j ≤
      levenshtein_distance_recurrence_matrix s1 s2 c i j + 1 := by
  cases j with
  | zero => rw [lev_matrix_zero_right, lev_matrix_zero_right]
  | succ j => rw [lev_matrix_succ]; omega

/-- A diagonal step costs at most the substitution term more. -/
theorem lev_matrix_le_sub (s1 s2 : List α) (c i j : Nat) :
    levenshtein_distance_recurrence_matrix s1 s2 c (i + 1) (j + 1) ≤
      levenshtein_distance_recurrence_matrix s1 s2 c i j + substitutionCost s1 s2 c i j := by
  rw [lev_matrix_succ]; omega

theorem substitutionCost_eq (s1 s2 : List α) (c : Nat) {i j : Nat}
    (hi : i < s1.length) (hj : j < s2.length) :
    substitutionCost s1 s2 c i j = if s1[i] = s2[j] then 0 else c := by
  simp [substitutionCost, List.getElem?_eq_getElem, hi, hj]

theorem take_succ_of_lt (s : List α) {i : Nat} (hi : i < s.length) :
    s.take (i + 1) = s.take i ++ [s[i]] := by
  rw [List.take_succ, List.getElem?_eq_getElem hi, Option.toList_some]

/-- Achievability: cell `(i, j)` of the matrix is the cost of some edit script
between the length-`i` prefix of `s1` and the length-`j` prefix of `s2`. -/
theorem editCost_matrix (s1 s2 : List α) (c : Nat) :
    ∀ i j, i ≤ s1.length → j ≤ s2.length →
      EditCost c (s1.take i) (s2.take j) (levenshtein_distance_recurrence_matrix s1 s2 c i j) := by
  have main : ∀ n i j, i + j ≤ n → i ≤ s1.length → j ≤ s2.length →
      EditCost c (s1.take i) (s2.take j) (levenshtein_distance_recurrence_matrix s1 s2 c i j) := by
    intro n
    induction n using Nat.strong_induction_on with
    | _ n ih =>
      intro i j hn hi hj
      match i, j with
      | 0, 0 =>
        simpa [lev_matrix_zero_left] using (EditCost.nil : EditCost c ([] : List α) [] 0)
      | i + 1, 0 =>
        have hi' : i < s1.length := by omega
        rw [lev_matrix_zero_right, take_succ_of_lt s1 hi']
        have prev := ih (i + 0) (by omega) i 0 (by omega) (by omega) (by omega)
        rw [lev_matrix_zero_right] at prev
        exact EditCost.del _ _ (s1[i]) i prev
      | 0, j + 1 =>
        have hj' : j < s2.length := by omega
        rw [lev_matrix_zero_left, take_succ_of_lt s2 hj']
        have prev := ih (0 + j) (by omega) 0 j (by omega) (by omega) (by omega)
        rw [lev_matrix_zero_left] at prev
        exact EditCost.ins _ _ (s2[j]) j prev
      | i + 1, j + 1 =>
        have hi' : i < s1.length := by omega
        have hj' : j < s2.length := by omega
        rw [lev_matrix_succ, take_succ_of_lt s1 hi', take_succ_of_lt s2 hj']
        have hdel := ih (i + (j + 1)) (by omega) i (j + 1) (by omega) (by omega) (by omega)
        have hins := ih ((i + 1) + j) (by omega) (i + 1) j (by omega) (by omega) (by omega)
        have hsub := ih (i + j) (by omega) i j (by omega) (by omega) (by omega)
        set A := levenshtein_distance_recurrence_matrix s1 s2 c i (j + 1) + 1 with hA
        set B := levenshtein_distance_recurrence_matrix s1 s2 c (i + 1) j + 1 with hB
        set S := levenshtein_distance_recurrence_matrix s1 s2 c i j +
          substitutionCost s1 s2 c i j with hS
        have hcase : min (min A B) S = A ∨ min (min A B) S = B ∨ min (min A B) S = S := by
          omega
        rcases hcase with h | h | h
        · rw [h, hA]
          rw [take_succ_of_lt s2 hj'] at hdel
          exact EditCost.del _ _ (s1[i]) _ hdel
        · rw [h, hB]
          rw [take_succ_of_lt s1 hi'] at hins
          exact EditCost.ins _ _ (s2[j]) _ hins
        · rw [h, hS, substitutionCost_eq s1 s2 c hi' hj']
          exact EditCost.subst _ _ (s1[i]) (s2[j]) _ hsub
  intro i j hi hj
  exact main (i + j) i j le_rfl hi hj

/-- Optimality: no edit script between prefixes is cheaper than the matrix cell. -/
theorem matrix_le_editCost (s1 s2 : List α) (c : Nat) {xs ys : List α} {k : Nat}
    (h : EditCost c xs ys k) :
    ∀ i j, i ≤ s1.length → j ≤ s2.length → xs = s1.take i → ys = s2.take j →
      levenshtein_distance_recurrence_matrix s1 s2 c i j ≤ k := by
  induction h with
  | nil =>
    intro i j hi hj hxs hys
    have hi0 : i = 0 := by
      have := congrArg List.length hxs
      simp [List.length_take] at this
      omega
    have hj0 : j = 0 := by
      have := congrArg List.length hys
      simp [List.length_take] at this
      omega
    subst hi0; subst hj0
    rw [lev_matrix_zero_left]
  | ins xs ys y n hprev ih =>
    intro i j hi hj hxs hys
    have hj1 : j = ys.length + 1 := by
      have := congrArg List.length hys
      simp [List.length_take] at this
      omega
    obtain ⟨j', rfl⟩ : ∃ j', j = j' + 1 := ⟨ys.length, hj1⟩
    have hj' : j' < s2.length := by omega
    rw [take_succ_of_lt s2 hj'] at hys
    obtain ⟨hys', -⟩ := List.append_inj' hys (by simp)
    have := ih i j' hi (by omega) hxs hys'
    have hstep := lev_matrix_le_ins s1 s2 c i j'
    omega
  | del xs ys x n hprev ih =>
    intro i j hi hj hxs hys
    have hi1 : i = xs.length + 1 := by
      have := congrArg List.length hxs
      simp [List.length_take] at this
      omega
    obtain ⟨i', rfl⟩ : ∃ i', i = i' + 1 := ⟨xs.length, hi1⟩
    have hi' : i' < s1.length := by omega
    rw [take_succ_of_lt s1 hi'] at hxs
    obtain ⟨hxs', -⟩ := List.append_inj' hxs (by simp)
    have := ih i' j (by omega) hj hxs' hys
    have hstep := lev_matrix_le_del s1 s2 c i' j
    omega
  | subst xs ys x y n hprev ih =>
    intro i j hi hj hxs hys
    have hi1 : i = xs.length + 1 := by
      have := congrArg List.length hxs
      simp [List.length_take] at this
      omega
    have hj1 : j = ys.length + 1 := by
      have := congrArg List.length hys
      simp [List.length_take] at this
      omega
    obtain ⟨i', rfl⟩ : ∃ i', i = i' + 1 := ⟨xs.length, hi1⟩
    obtain ⟨j', rfl⟩ : ∃ j', j = j' + 1 := ⟨ys.length, hj1⟩
    have hi' : i' < s1.length := by omega
    have hj' : j' < s2.length := by omega
    rw [take_succ_of_lt s1 hi'] at hxs
    rw [take_succ_of_lt s2 hj'] at hys
    obtain ⟨hxs', hx⟩ := List.append_inj' hxs (by simp)
    obtain ⟨hys', hy⟩ := List.append_inj' hys (by simp)
    have hprefix := ih i' j' (by omega) (by omega) hxs' hys'
    have hstep := lev_matrix_le_sub s1 s2 c i' j'
    have hsubeq : substitutionCost s1 s2 c i' j' = if x = y then 0 else c := by
      rw [substitutionCost_eq s1 s2 c hi' hj']
      simp at hx hy
      rw [hx, hy]
    omega

/-- C1: `levenshtein_distance(S1, S2, C)` is the minimum total cost of
transforming `S1` into `S2` with unit-cost insertions, unit-cost deletions and
cost-`C` substitutions (equal elements substitute for free); equivalently it
is cell `(m, n)` of the Wagner-Fischer matrix whose border row is `0..n`,
whose border column is `0..m`, and whose interior satisfies the three-term
min recurrence. -/
theorem c1_levenshtein_distance_minimal (s1 s2 : List α) (c : Nat) :
    levenshtein_distance s1 s2 c =
      levenshtein_distance_recurrence_matrix s1 s2 c s1.length s2.length ∧
    (∀ j, levenshtein_distance_recurrence_matrix s1 s2 c 0 j = j) ∧
    (∀ i, levenshtein_distance_recurrence_matrix s1 s2 c i 0 = i) ∧
    (∀ i j, levenshtein_distance_recurrence_matrix s1 s2 c (i + 1) (j + 1) =
      min (min (levenshtein_distance_recurrence_matrix s1 s2 c i (j + 1) + 1)
               (levenshtein_distance_recurrence_matrix s1 s2 c (i + 1) j + 1))
          (levenshtein_distance_recurrence_matrix s1 s2 c i j +
            substitutionCost s1 s2 c i j)) ∧
    EditCost c s1 s2 (levenshtein_distance s1 s2 c) ∧
    ∀ k, EditCost c s1 s2 k → levenshtein_distance s1 s2 c ≤ k := by
  refine ⟨rfl, lev_matrix_zero_left s1 s2 c, lev_matrix_zero_right s1 s2 c,
    lev_matrix_succ s1 s2 c, ?_, ?_⟩
  · have h := editCost_matrix s1 s2 c s1.length s2.length le_rfl le_rfl
    simpa [levenshtein_distance, List.take_length] using h
  · intro k hk
    exact matrix_le_editCost s1 s2 c hk s1.length s2.length le_rfl le_rfl
      (by simp) (by simp)

theorem c1_witness : levenshtein_distance ["a"] ["b"] 2 ≤ 2 := by
  have h0 : EditCost 2 ([] : List String) [] 0 := EditCost.nil
  have h1 := EditCost.subst ([] : List String) [] "a" "b" 0 h0
  have h2 : EditCost 2 ["a"] ["b"] 2 := by simpa using h1
  exact (c1_levenshtein_distance_minimal ["a"] ["b"] 2).2.2.2.2.2 2 h2

theorem alignmentCellFuel_eq (s1 s2 : List α) (c : Nat) :
    ∀ fuel i j, alignmentCellFuel s1 s2 c fuel i j = levenshteinCellFuel s1 s2 c fuel i j := by
  intro fuel
  induction fuel with
  | zero => intro i j; rfl
  | succ f ih =>
    intro i j
    match i, j with
    | 0, j => rfl
    | i + 1, 0 => rfl
    | i + 1, j + 1 =>
      simp only [alignmentCellFuel, levenshteinCellFuel, ih]
      split_ifs <;> omega

theorem alignment_matrix_cost_eq (s1 s2 : List α) (c row col : Nat) :
    alignment_matrix_cost s1 s2 c row col =
      levenshtein_distance_recurrence_matrix s1 s2 c row col :=
  alignmentCellFuel_eq s1 s2 c (row + col) row col

theorem alignment_matrix_origin (s1 s2 : List α) (c : Nat) :
    alignment_matrix s1 s2 c (0, 0) = none := by
  simp [alignment_matrix, alignment_matrix_pred]

/-- Every in-range coordinate other than the origin has a recorded predecessor. -/
theorem alignment_matrix_total (s1 s2 : List α) (c : Nat) {i j : Nat}
    (hi : i ≤ s1.length) (hj : j ≤ s2.length) (hne : ¬(i = 0 ∧ j = 0)) :
    ∃ p, alignment_matrix s1 s2 c (i, j) = some p := by
  unfold alignment_matrix
  rw [if_pos ⟨hi, hj⟩]
  match i, j with
  | 0, 0 => exact absurd ⟨rfl, rfl⟩ hne
  | i + 1, 0 => exact ⟨(i, 0), rfl⟩
  | 0, j + 1 => exact ⟨(0, j), rfl⟩
  | i + 1, j + 1 =>
    simp only [alignment_matrix_pred]
    split_ifs <;> exact ⟨_, rfl⟩

/-- Shape of every recorded predecessor link: both coordinates are in range and
the step changes each component by 0 or 1, not both by 0. -/
theorem alignment_pred_shape (s1 s2 : List α) (c : Nat) {q p : Coordinate}
    (hq : alignment_matrix s1 s2 c q = some p) :
    q.1 ≤ s1.length ∧ q.2 ≤ s2.length ∧ p.1 ≤ s1.length ∧ p.2 ≤ s2.length ∧
    (p.1 = q.1 ∨ p.1 + 1 = q.1) ∧ (p.2 = q.2 ∨ p.2 + 1 = q.2) ∧ p ≠ q := by
  unfold alignment_matrix at hq
  by_cases hb : q.1 ≤ s1.length ∧ q.2 ≤ s2.length
  · rw [if_pos hb] at hq
    obtain ⟨qi, qj⟩ := q
    obtain ⟨hb1, hb2⟩ := hb
    match qi, qj, hq with
    | 0, 0, hq => simp [alignment_matrix_pred] at hq
    | i + 1, 0, hq =>
      simp only [alignment_matrix_pred, Option.some.injEq] at hq
      subst hq
      refine ⟨hb1, hb2, by omega, by omega, by omega, by omega, by simp⟩
    | 0, j + 1, hq =>
      simp only [alignment_matrix_pred, Option.some.injEq] at hq
      subst hq
      refine ⟨hb1, hb2, by omega, by omega, by omega, by omega, by simp⟩
    | i + 1, j + 1, hq =>
      simp only [alignment_matrix_pred] at hq
      split_ifs at hq <;> simp only [Option.some.injEq] at hq <;> subst hq <;>
        refine ⟨hb1, hb2, by omega, by omega, by omega, by omega, by simp⟩
  · rw [if_neg hb] at hq
    exact absurd hq (by simp)

/-- Cost telescoping along a recorded predecessor link: the cell equals its
predecessor's cell plus the weight of the step taken (the substitution term for
a diagonal step, `1` otherwise). -/
theorem alignment_pred_cost (s1 s2 : List α) (c : Nat) {q p : Coordinate}
    (hq : alignment_matrix s1 s2 c q = some p) :
    levenshtein_distance_recurrence_matrix s1 s2 c q.1 q.2 =
      levenshtein_distance_recurrence_matrix s1 s2 c p.1 p.2 +
        (if p.1 + 1 = q.1 ∧ p.2 + 1 = q.2 then substitutionCost s1 s2 c p.1 p.2 else 1) := by
  unfold alignment_matrix at hq
  by_cases hb : q.1 ≤ s1.length ∧ q.2 ≤ s2.length
  · rw [if_pos hb] at hq
    obtain ⟨qi, qj⟩ := q
    match qi, qj, hq with
    | 0, 0, hq => simp [alignment_matrix_pred] at hq
    | i + 1, 0, hq =>
      simp only [alignment_matrix_pred, Option.some.injEq] at hq
      subst hq
      dsimp only
      simp only [lev_matrix_zero_right]
      rw [if_neg (by omega)]
    | 0, j + 1, hq =>
      simp only [alignment_matrix_pred, Option.some.injEq] at hq
      subst hq
      dsimp only
      simp only [lev_matrix_zero_left]
      rw [if_neg (by omega)]
    | i + 1, j + 1, hq =>
      simp only [alignment_matrix_pred, alignment_matrix_cost_eq] at hq
      dsimp only
      rw [lev_matrix_succ]
      split_ifs at hq <;> simp only [Option.some.injEq] at hq <;> subst hq <;> dsimp only <;>
        first
          | (rw [if_pos ⟨rfl, rfl⟩]; omega)
          | (rw [if_neg (by omega)]; omega)
  · rw [if_neg hb] at hq
    exact absurd hq (by simp)

/-- Full specification of the backtrace from an in-range coordinate with
sufficient fuel: it starts at the given coordinate, ends at the origin, each
consecutive pair is a recorded predecessor link, all visited coordinates are in
range, and its length lies between `max i j + 1` and `i + j + 1`. -/
theorem backtrace_spec (s1 s2 : List α) (c : Nat) :
    ∀ fuel i j, i ≤ s1.length → j ≤ s2.length → i + j ≤ fuel →
      (backtrace_alignment_matrix (i, j) (alignment_matrix s1 s2 c) fuel).head? = some (i, j) ∧
      (backtrace_alignment_matrix (i, j) (alignment_matrix s1 s2 c) fuel).getLast? = some (0, 0) ∧
      List.Chain' (fun p q => alignment_matrix s1 s2 c p = some q)
        (backtrace_alignment_matrix (i, j) (alignment_matrix s1 s2 c) fuel) ∧
      (∀ p ∈ backtrace_alignment_matrix (i, j) (alignment_matrix s1 s2 c) fuel,
        p.1 ≤ s1.length ∧ p.2 ≤ s2.length) ∧
      max i j + 1 ≤ (backtrace_alignment_matrix (i, j) (alignment_matrix s1 s2 c) fuel).length ∧
      (backtrace_alignment_matrix (i, j) (alignment_matrix s1 s2 c) fuel).length ≤ i + j + 1 := by
  intro fuel
  induction fuel with
  | zero =>
    intro i j hi hj hij
    obtain ⟨rfl, rfl⟩ : i = 0 ∧ j = 0 := by omega
    refine ⟨rfl, by simp [backtrace_alignment_matrix], ?_, ?_, ?_, ?_⟩ <;>
      simp [backtrace_alignment_matrix]
  | succ f ih =>
    intro i j hi hj hij
    by_cases h0 : i = 0 ∧ j = 0
    · obtain ⟨rfl, rfl⟩ := h0
      have hval : backtrace_alignment_matrix (0, 0) (alignment_matrix s1 s2 c) (f + 1) =
          [(0, 0)] := by
        unfold backtrace_alignment_matrix
        rw [alignment_matrix_origin]
      rw [hval]
      refine ⟨rfl, by simp, ?_, ?_, ?_, ?_⟩ <;> simp
    · obtain ⟨p, hp⟩ := alignment_matrix_total s1 s2 c hi hj h0
      obtain ⟨pi, pj⟩ := p
      have hshape := alignment_pred_shape s1 s2 c hp
      dsimp only at hshape
      obtain ⟨-, -, hp1, hp2, hd1, hd2, hne⟩ := hshape
      have hne' : ¬(pi = i ∧ pj = j) := by
        intro hcon
        exact hne (by rw [hcon.1, hcon.2])
      have hsum : pi + pj ≤ f := by omega
      obtain ⟨ihhead, ihlast, ihchain, ihmem, ihlow, ihhigh⟩ := ih pi pj hp1 hp2 hsum
      have hrec : backtrace_alignment_matrix (i, j) (alignment_matrix s1 s2 c) (f + 1) =
          (i, j) :: backtrace_alignment_matrix (pi, pj) (alignment_matrix s1 s2 c) f := by
        simp [backtrace_alignment_matrix, hp]
      rw [hrec]
      have hLne : backtrace_alignment_matrix (pi, pj) (alignment_matrix s1 s2 c) f ≠ [] := by
        intro hnil
        rw [hnil] at ihhead
        cases ihhead
      obtain ⟨b, L', hbL⟩ := List.exists_cons_of_ne_nil hLne
      refine ⟨rfl, ?_, ?_, ?_, ?_, ?_⟩
      · rw [hbL, List.getLast?_cons_cons, ← hbL]
        exact ihlast
      · rw [List.chain'_cons']
        refine ⟨?_, ihchain⟩
        intro y hy
        rw [ihhead] at hy
        rw [Option.mem_some_iff] at hy
        exact hy ▸ hp
      · intro q hq
        rw [List.mem_cons] at hq
        rcases hq with rfl | hq
        · exact ⟨hi, hj⟩
        · exact ihmem q hq
      · simp only [List.length_cons]
        omega
      · simp only [List.length_cons]
        omega

/-- C5: `alignment_path` returns a non-empty monotone list of coordinates from
`(0, 0)` to `(len1, len2)`: consecutive coordinates are exactly the recorded
predecessor links, each step increases row and column by 0 or 1 and never both
by 0, and the number of steps is between `max(len1, len2)` and `len1 + len2`. -/
theorem c5_alignment_path_invariants (s1 s2 : List α) (c : Nat) :
    alignment_path s1 s2 c ≠ [] ∧
    (alignment_path s1 s2 c).head? = some (0, 0) ∧
    (alignment_path s1 s2 c).getLast? = some (s1.length, s2.length) ∧
    List.Chain' (fun p q => alignment_matrix s1 s2 c q = some p) (alignment_path s1 s2 c) ∧
    List.Chain' (fun p q =>
        (p.1 = q.1 ∨ p.1 + 1 = q.1) ∧ (p.2 = q.2 ∨ p.2 + 1 = q.2) ∧ p ≠ q)
      (alignment_path s1 s2 c) ∧
    max s1.length s2.length + 1 ≤ (alignment_path s1 s2 c).length ∧
    (alignment_path s1 s2 c).length ≤ s1.length + s2.length + 1 := by
  obtain ⟨hhead, hlast, hchain, hmem, hlow, hhigh⟩ :=
    backtrace_spec s1 s2 c (s1.length + s2.length) s1.length s2.length le_rfl le_rfl le_rfl
  have hch : List.Chain' (fun p q => alignment_matrix s1 s2 c q = some p)
      (alignment_path s1 s2 c) := by
    unfold alignment_path
    rw [List.chain'_reverse]
    exact hchain
  refine ⟨?_, ?_, ?_, hch, ?_, ?_, ?_⟩
  · unfold alignment_path
    intro hnil
    rw [List.reverse_eq_nil_iff] at hnil
    rw [hnil] at hhead
    cases hhead
  · unfold alignment_path
    rw [List.head?_reverse]
    exact hlast
  · unfold alignment_path
    rw [List.getLast?_reverse]
    exact hhead
  · refine List.Chain'.imp ?_ hch
    intro p q hpq
    have h := alignment_pred_shape s1 s2 c hpq
    exact ⟨h.2.2.2.2.1, h.2.2.2.2.2.1, h.2.2.2.2.2.2⟩
  · unfold alignment_path
    rw [List.length_reverse]
    exact hlow
  · unfold alignment_path
    rw [List.length_reverse]
    exact hhigh

theorem c5_witness : (alignment_path ["d", "o", "g"] ["w", "o", "o", "f"] 1).head? =
    some (0, 0) :=
  (c5_alignment_path_invariants ["d", "o", "g"] ["w", "o", "o", "f"] 1).2.1

/-- C2: at every interior cell `(row, col)` the recorded predecessor follows the
fixed tie-break priority of `alignment_matrix`: the insertion predecessor
`(row, col-1)` whenever its candidate `cost[row][col-1] + 1` attains the
minimum of the three candidates; otherwise the deletion predecessor
`(row-1, col)` whenever its candidate is strictly smaller than the insertion
candidate; the diagonal predecessor `(row-1, col-1)` only when its candidate is
strictly smaller than both. -/
theorem c2_tie_break_priority (s1 s2 : List α) (c : Nat) (row col : Nat)
    (hrow1 : 1 ≤ row) (hrow2 : row ≤ s1.length) (hcol1 : 1 ≤ col) (hcol2 : col ≤ s2.length) :
    (alignment_matrix s1 s2 c (row, col)).isSome = true ∧
    (alignment_matrix s1 s2 c (row, col) = some (row, col - 1) ↔
      levenshtein_distance_recurrence_matrix s1 s2 c row (col - 1) + 1 ≤
        levenshtein_distance_recurrence_matrix s1 s2 c (row - 1) col + 1 ∧
      levenshtein_distance_recurrence_matrix s1 s2 c row (col - 1) + 1 ≤
        levenshtein_distance_recurrence_matrix s1 s2 c (row - 1) (col - 1) +
          substitutionCost s1 s2 c (row - 1) (col - 1)) ∧
    (alignment_matrix s1 s2 c (row, col) = some (row - 1, col) ↔
      levenshtein_distance_recurrence_matrix s1 s2 c (row - 1) col + 1 <
        levenshtein_distance_recurrence_matrix s1 s2 c row (col - 1) + 1 ∧
      levenshtein_distance_recurrence_matrix s1 s2 c (row - 1) col + 1 ≤
        levenshtein_distance_recurrence_matrix s1 s2 c (row - 1) (col - 1) +
          substitutionCost s1 s2 c (row - 1) (col - 1)) ∧
    (alignment_matrix s1 s2 c (row, col) = some (row - 1, col - 1) ↔
      levenshtein_distance_recurrence_matrix s1 s2 c (row - 1) (col - 1) +
          substitutionCost s1 s2 c (row - 1) (col - 1) <
        levenshtein_distance_recurrence_matrix s1 s2 c row (col - 1) + 1 ∧
      levenshtein_distance_recurrence_matrix s1 s2 c (row - 1) (col - 1) +
          substitutionCost s1 s2 c (row - 1) (col - 1) <
        levenshtein_distance_recurrence_matrix s1 s2 c (row - 1) col + 1) := by
  obtain ⟨i, rfl⟩ : ∃ i, row = i + 1 := ⟨row - 1, by omega⟩
  obtain ⟨j, rfl⟩ : ∃ j, col = j + 1 := ⟨col - 1, by omega⟩
  simp only [Nat.add_sub_cancel]
  unfold alignment_matrix
  rw [if_pos ⟨hrow2, hcol2⟩]
  simp only [alignment_matrix_pred, alignment_matrix_cost_eq]
  split_ifs with h1 h2 <;>
    refine ⟨rfl, ?_, ?_, ?_⟩ <;>
    simp only [Option.some.injEq, Prod.mk.injEq, true_iff] <;>
    omega

theorem c2_witness :
    alignment_matrix ["a"] ["b"] 1 (1, 1) = some (0, 0) ↔
      levenshtein_distance_recurrence_matrix ["a"] ["b"] 1 0 0 +
          substitutionCost ["a"] ["b"] 1 0 0 <
        levenshtein_distance_recurrence_matrix ["a"] ["b"] 1 1 0 + 1 ∧
      levenshtein_distance_recurrence_matrix ["a"] ["b"] 1 0 0 +
          substitutionCost ["a"] ["b"] 1 0 0 <
        levenshtein_distance_recurrence_matrix ["a"] ["b"] 1 0 1 + 1 :=
  (c2_tie_break_priority ["a"] ["b"] 1 1 1 (by decide) (by decide) (by decide) (by decide)).2.2.2

/-- Any recorded predecessor link has one of the three legal step shapes: the
corresponding loop iteration of `alignment_strings` emits a pair instead of
panicking, and — when the placeholder occurs in neither input — that pair is
charged exactly the cost difference of the two cells. -/
theorem emitPair_of_pred (s1 s2 : List α) (c : Nat) (ins_del_char : α) {q p : Coordinate}
    (hq : alignment_matrix s1 s2 c q = some p) :
    ∃ em, emitPair s1 s2 ins_del_char p q = some em ∧
      StepRel s1 s2 ins_del_char (p, q) em ∧
      (ins_del_char ∉ s1 → ins_del_char ∉ s2 →
        levenshtein_distance_recurrence_matrix s1 s2 c q.1 q.2 =
          levenshtein_distance_recurrence_matrix s1 s2 c p.1 p.2 +
            pairCost ins_del_char c em) := by
  have hcost := alignment_pred_cost s1 s2 c hq
  have hshape := alignment_pred_shape s1 s2 c hq
  obtain ⟨hq1, hq2, -, -, -, -, -⟩ := hshape
  unfold alignment_matrix at hq
  rw [if_pos ⟨hq1, hq2⟩] at hq
  obtain ⟨qi, qj⟩ := q
  match qi, qj, hq with
  | 0, 0, hq => simp [alignment_matrix_pred] at hq
  | i + 1, 0, hq =>
    simp only [alignment_matrix_pred, Option.some.injEq] at hq
    subst hq
    have hi' : i < s1.length := by omega
    refine ⟨(s1[i], ins_del_char), ?_, ?_, ?_⟩
    · unfold emitPair
      rw [if_neg (by dsimp only; omega), if_neg (by dsimp only; omega),
        if_pos (by dsimp only; exact ⟨by omega, by omega, rfl⟩)]
      dsimp only
      rw [Nat.add_sub_cancel, List.getElem?_eq_getElem hi']
    · refine Or.inr (Or.inr ?_)
      dsimp only
      exact ⟨rfl, rfl, List.getElem?_eq_getElem hi', rfl⟩
    · intro hph1 hph2
      dsimp only at hcost ⊢
      rw [hcost, if_neg (by omega)]
      have : pairCost ins_del_char c (s1[i], ins_del_char) = 1 := by
        unfold pairCost
        rw [if_pos (Or.inr rfl)]
      rw [this]
  | 0, j + 1, hq =>
    simp only [alignment_matrix_pred, Option.some.injEq] at hq
    subst hq
    have hj' : j < s2.length := by omega
    refine ⟨(ins_del_char, s2[j]), ?_, ?_, ?_⟩
    · unfold emitPair
      rw [if_neg (by dsimp only; omega),
        if_pos (by dsimp only; exact ⟨rfl, by omega, by omega⟩)]
      dsimp only
      rw [Nat.add_sub_cancel, List.getElem?_eq_getElem hj']
    · refine Or.inr (Or.inl ?_)
      dsimp only
      exact ⟨rfl, rfl, rfl, List.getElem?_eq_getElem hj'⟩
    · intro hph1 hph2
      dsimp only at hcost ⊢
      rw [hcost, if_neg (by omega)]
      have : pairCost ins_del_char c (ins_del_char, s2[j]) = 1 := by
        unfold pairCost
        rw [if_pos (Or.inl rfl)]
      rw [this]
  | i + 1, j + 1, hq =>
    have hi' : i < s1.length := by omega
    have hj' : j < s2.length := by omega
    simp only [alignment_matrix_pred] at hq
    split_ifs at hq <;> simp only [Option.some.injEq] at hq <;> subst hq <;>
      dsimp only at hcost ⊢
    · -- diagonal predecessor (i, j)
      refine ⟨(s1[i], s2[j]), ?_, ?_, ?_⟩
      · unfold emitPair
        rw [if_pos (by dsimp only; exact ⟨by omega, by omega, by omega, by omega⟩)]
        dsimp only
        rw [Nat.add_sub_cancel, Nat.add_sub_cancel,
          List.getElem?_eq_getElem hi', List.getElem?_eq_getElem hj']
      · exact Or.inl ⟨rfl, rfl, List.getElem?_eq_getElem hi', List.getElem?_eq_getElem hj'⟩
      · intro hph1 hph2
        rw [hcost, if_pos ⟨rfl, rfl⟩]
        have ha : s1[i] ≠ ins_del_char := fun h => hph1 (h ▸ List.getElem_mem hi')
        have hb : s2[j] ≠ ins_del_char := fun h => hph2 (h ▸ List.getElem_mem hj')
        have : pairCost ins_del_char c (s1[i], s2[j]) = substitutionCost s1 s2 c i j := by
          unfold pairCost substitutionCost
          rw [if_neg (by dsimp only; rintro (h | h); exact ha h; exact hb h)]
          rw [List.getElem?_eq_getElem hi', List.getElem?_eq_getElem hj']
          dsimp only
          by_cases hab : s1[i] = s2[j]
          · rw [if_neg (by simpa using hab), if_pos (by simpa using hab)]
          · rw [if_pos (by simpa using hab), if_neg (by simpa using hab)]
        rw [this]
    · -- deletion predecessor (i, j + 1)
      refine ⟨(s1[i], ins_del_char), ?_, ?_, ?_⟩
      · unfold emitPair
        rw [if_neg (by dsimp only; omega), if_neg (by dsimp only; omega),
          if_pos (by dsimp only; exact ⟨by omega, by omega, rfl⟩)]
        dsimp only
        rw [Nat.add_sub_cancel, List.getElem?_eq_getElem hi']
      · refine Or.inr (Or.inr ?_)
        exact ⟨rfl, rfl, List.getElem?_eq_getElem hi', rfl⟩
      · intro hph1 hph2
        rw [hcost, if_neg (by omega)]
        have : pairCost ins_del_char c (s1[i], ins_del_char) = 1 := by
          unfold pairCost
          rw [if_pos (Or.inr rfl)]
        rw [this]
    · -- diagonal predecessor (i, j), tie-break branch with insertion candidate minimal
      refine ⟨(s1[i], s2[j]), ?_, ?_, ?_⟩
      · unfold emitPair
        rw [if_pos (by dsimp only; exact ⟨by omega, by omega, by omega, by omega⟩)]
        dsimp only
        rw [Nat.add_sub_cancel, Nat.add_sub_cancel,
          List.getElem?_eq_getElem hi', List.getElem?_eq_getElem hj']
      · exact Or.inl ⟨rfl, rfl, List.getElem?_eq_getElem hi', List.getElem?_eq_getElem hj'⟩
      · intro hph1 hph2
        rw [hcost, if_pos ⟨rfl, rfl⟩]
        have ha : s1[i] ≠ ins_del_char := fun h => hph1 (h ▸ List.getElem_mem hi')
        have hb : s2[j] ≠ ins_del_char := fun h => hph2 (h ▸ List.getElem_mem hj')
        have : pairCost ins_del_char c (s1[i], s2[j]) = substitutionCost s1 s2 c i j := by
          unfold pairCost substitutionCost
          rw [if_neg (by dsimp only; rintro (h | h); exact ha h; exact hb h)]
          rw [List.getElem?_eq_getElem hi', List.getElem?_eq_getElem hj']
          dsimp only
          by_cases hab : s1[i] = s2[j]
          · rw [if_neg (by simpa using hab), if_pos (by simpa using hab)]
          · rw [if_pos (by simpa using hab), if_neg (by simpa using hab)]
        rw [this]
    · -- insertion predecessor (i + 1, j)
      refine ⟨(ins_del_char, s2[j]), ?_, ?_, ?_⟩
      · unfold emitPair
        rw [if_neg (by dsimp only; omega),
          if_pos (by dsimp only; exact ⟨rfl, by omega, by omega⟩)]
        dsimp only
        rw [Nat.add_sub_cancel, List.getElem?_eq_getElem hj']
      · refine Or.inr (Or.inl ?_)
        exact ⟨rfl, rfl, rfl, List.getElem?_eq_getElem hj'⟩
      · intro hph1 hph2
        rw [hcost, if_neg (by omega)]
        have : pairCost ins_del_char c (ins_del_char, s2[j]) = 1 := by
          unfold pairCost
          rw [if_pos (Or.inl rfl)]
        rw [this]

/-- Walking a chained tail of the path from `prev`, the loop of
`alignment_strings` emits one pair per step (never panicking); the pairs stand
in `StepRel` to the consecutive coordinate pairs, and their total cost (under a
fresh placeholder) telescopes to the cost difference between the last and the
first coordinate. -/
theorem alignmentSteps_spec (s1 s2 : List α) (c : Nat) (ins_del_char : α) :
    ∀ (L : List Coordinate) (prev : Coordinate),
      List.Chain' (fun a b => alignment_matrix s1 s2 c b = some a) (prev :: L) →
      ∃ ps, alignmentSteps s1 s2 ins_del_char prev L = some ps ∧
        List.Forall₂ (StepRel s1 s2 ins_del_char) ((prev :: L).zip L) ps ∧
        (ins_del_char ∉ s1 → ins_del_char ∉ s2 →
          ∀ lastc : Coordinate, (prev :: L).getLast? = some lastc →
            (ps.map (pairCost ins_del_char c)).sum +
                levenshtein_distance_recurrence_matrix s1 s2 c prev.1 prev.2 =
              levenshtein_distance_recurrence_matrix s1 s2 c lastc.1 lastc.2) := by
  intro L
  induction L with
  | nil =>
    intro prev hch
    refine ⟨[], rfl, by simp, ?_⟩
    intro hph1 hph2 lastc hlast
    simp only [List.getLast?_singleton, Option.some.injEq] at hlast
    subst hlast
    simp
  | cons q rest ih =>
    intro prev hch
    rw [List.chain'_cons] at hch
    obtain ⟨hlink, hch'⟩ := hch
    obtain ⟨em, hem, hrel, hcost⟩ := emitPair_of_pred s1 s2 c ins_del_char hlink
    obtain ⟨ps, hps, hrels, hcosts⟩ := ih q hch'
    refine ⟨em :: ps, ?_, ?_, ?_⟩
    · unfold alignmentSteps
      rw [hem, hps]
    · exact List.Forall₂.cons hrel hrels
    · intro hph1 hph2 lastc hlast
      rw [List.getLast?_cons_cons] at hlast
      have hc := hcost hph1 hph2
      have hcs := hcosts hph1 hph2 lastc hlast
      simp only [List.map_cons, List.sum_cons]
      omega

/-- The alignment path always decomposes as the origin followed by a chained
tail ending at the terminal coordinate. -/
theorem alignment_path_cons (s1 s2 : List α) (c : Nat) :
    ∃ rest, alignment_path s1 s2 c = (0, 0) :: rest ∧
      List.Chain' (fun a b => alignment_matrix s1 s2 c b = some a) ((0, 0) :: rest) ∧
      ((0, 0) :: rest).getLast? = some (s1.length, s2.length) := by
  obtain ⟨hhead, hlast, hchain, hmem, hlow, hhigh⟩ :=
    backtrace_spec s1 s2 c (s1.length + s2.length) s1.length s2.length le_rfl le_rfl le_rfl
  have hch : List.Chain' (fun a b => alignment_matrix s1 s2 c b = some a)
      (alignment_path s1 s2 c) := by
    unfold alignment_path
    rw [List.chain'_reverse]
    exact hchain
  have hh : (alignment_path s1 s2 c).head? = some (0, 0) := by
    unfold alignment_path
    rw [List.head?_reverse]
    exact hlast
  have hl : (alignment_path s1 s2 c).getLast? = some (s1.length, s2.length) := by
    unfold alignment_path
    rw [List.getLast?_reverse]
    exact hhead
  cases hpath : alignment_path s1 s2 c with
  | nil => rw [hpath] at hh; cases hh
  | cons p0 rest =>
    rw [hpath] at hh hch hl
    have hp0 : p0 = (0, 0) := by
      simp only [List.head?_cons, Option.some.injEq] at hh
      exact hh
    subst hp0
    exact ⟨rest, rfl, hch, hl⟩

/-- C9: for every path produced by `alignment_path`, every consecutive step
seen by `alignment_strings` matches one of the three legal shapes, so the
`panic!()` branch is unreachable: `alignment_strings` always returns a value. -/
theorem c9_panic_unreachable (s1 s2 : List α) (c : Nat) (ins_del_char : α) :
    (alignment_strings s1 s2 c ins_del_char).isSome = true := by
  obtain ⟨rest, hpath, hchain, hlast⟩ := alignment_path_cons s1 s2 c
  obtain ⟨ps, hps, -, -⟩ := alignmentSteps_spec s1 s2 c ins_del_char rest (0, 0) hchain
  have heq : alignment_strings s1 s2 c ins_del_char =
      some (ps.map Prod.fst, ps.map Prod.snd) := by
    unfold alignment_strings
    rw [hpath]
    dsimp only
    rw [hps]
  rw [heq]
  rfl

/-- C4: `alignment_strings` returns two sequences of equal length (one element
per path step, in left-to-right order); both are empty when both inputs are
empty, and each emitted pair is determined by the shape of its path step as in
`StepRel`: diagonal steps emit the original elements, column-only steps emit
the placeholder on the first side, row-only steps the placeholder on the
second side. -/
theorem c4_alignment_strings_shape (s1 s2 : List α) (c : Nat) (ins_del_char : α) :
    ∀ out1 out2, alignment_strings s1 s2 c ins_del_char = some (out1, out2) →
      out1.length = out2.length ∧
      out1.length + 1 = (alignment_path s1 s2 c).length ∧
      (s1 = [] → s2 = [] → out1 = [] ∧ out2 = []) ∧
      List.Forall₂ (StepRel s1 s2 ins_del_char)
        ((alignment_path s1 s2 c).zip (alignment_path s1 s2 c).tail) (out1.zip out2) := by
  obtain ⟨rest, hpath, hchain, hlast⟩ := alignment_path_cons s1 s2 c
  obtain ⟨ps, hps, hrels, -⟩ := alignmentSteps_spec s1 s2 c ins_del_char rest (0, 0) hchain
  intro out1 out2 hout
  have heq : alignment_strings s1 s2 c ins_del_char =
      some (ps.map Prod.fst, ps.map Prod.snd) := by
    unfold alignment_strings
    rw [hpath]
    dsimp only
    rw [hps]
  rw [heq] at hout
  simp only [Option.some.injEq, Prod.mk.injEq] at hout
  obtain ⟨h1, h2⟩ := hout
  subst h1
  subst h2
  have hlen : ps.length = rest.length := by
    have := List.Forall₂.length_eq hrels
    simp only [List.length_zip, List.length_cons] at this
    omega
  have hzip : (ps.map Prod.fst).zip (ps.map Prod.snd) = ps := by
    rw [List.zip_map']
    simp
  refine ⟨by simp, ?_, ?_, ?_⟩
  · rw [hpath]
    simp [hlen]
  · intro hs1 hs2
    subst hs1
    subst hs2
    have hrest : rest = [] := by
      have : alignment_path ([] : List α) ([] : List α) c = [(0, 0)] := rfl
      rw [this] at hpath
      exact (List.cons.injEq _ _ _ _).mp hpath.symm |>.2
    subst hrest
    have hps0 : ps = [] := by
      rw [show alignmentSteps ([] : List α) [] ins_del_char (0, 0) [] =
        some [] from rfl] at hps
      exact (Option.some.injEq _ _).mp hps |>.symm
    subst hps0
    exact ⟨rfl, rfl⟩
  · rw [hpath, hzip]
    exact hrels

theorem c4_witness :
    (["a"] : List String).length + 1 = (alignment_path ["a"] ["b"] 1).length :=
  (c4_alignment_strings_shape ["a"] ["b"] 1 " " ["a"] ["b"] (by decide)).2.1

/-- The total pair cost of an emitted list splits into the placeholder count
plus `sub_cost` times the mismatch count. -/
theorem pairCost_sum_eq (ins_del_char : α) (sub_cost : Nat) :
    ∀ ps : List (α × α),
      (ps.map (pairCost ins_del_char sub_cost)).sum =
        placeholderCount ins_del_char ps + sub_cost * mismatchCount ins_del_char ps := by
  intro ps
  induction ps with
  | nil => rfl
  | cons em ps ih =>
    simp only [List.map_cons, List.sum_cons, placeholderCount, mismatchCount,
      List.filter_cons] at ih ⊢
    by_cases hph : em.1 = ins_del_char ∨ em.2 = ins_del_char
    · have hmm : ¬(em.1 ≠ ins_del_char ∧ em.2 ≠ ins_del_char ∧ em.1 ≠ em.2) := by
        tauto
      rw [if_pos (by simpa using hph), if_neg (by simpa using hmm)]
      have hpc : pairCost ins_del_char sub_cost em = 1 := by
        unfold pairCost
        rw [if_pos hph]
      rw [hpc]
      simp only [List.length_cons]
      omega
    · push_neg at hph
      have hpc : pairCost ins_del_char sub_cost em =
          if em.1 ≠ em.2 then sub_cost else 0 := by
        unfold pairCost
        rw [if_neg (by tauto)]
      rw [if_neg (by simpa using hph)]
      by_cases hne : em.1 = em.2
      · have hmm : ¬(em.1 ≠ ins_del_char ∧ em.2 ≠ ins_del_char ∧ em.1 ≠ em.2) := by
          tauto
        rw [if_neg (by simpa using hmm), hpc, if_neg (by simpa using hne)]
        omega
      · have hmm : em.1 ≠ ins_del_char ∧ em.2 ≠ ins_del_char ∧ em.1 ≠ em.2 :=
          ⟨hph.1, hph.2, hne⟩
        rw [if_pos (by simpa using hmm), hpc, if_pos (by simpa using hne)]
        simp only [List.length_cons]
        ring_nf
        omega

/-- C3 (amended): when the placeholder occurs in neither input sequence, the
number of output positions where either side is the placeholder, plus the
substitution cost times the number of aligned positions where the sides differ
(and neither is the placeholder), equals `levenshtein_distance`. -/
theorem c3_roundtrip_cost (s1 s2 : List α) (c : Nat) (ins_del_char : α)
    (hph1 : ins_del_char ∉ s1) (hph2 : ins_del_char ∉ s2) :
    ∀ out1 out2, alignment_strings s1 s2 c ins_del_char = some (out1, out2) →
      placeholderCount ins_del_char (out1.zip out2) +
          c * mismatchCount ins_del_char (out1.zip out2) =
        levenshtein_distance s1 s2 c := by
  obtain ⟨rest, hpath, hchain, hlast⟩ := alignment_path_cons s1 s2 c
  obtain ⟨ps, hps, hrels, hcost⟩ := alignmentSteps_spec s1 s2 c ins_del_char rest (0, 0) hchain
  intro out1 out2 hout
  have heq : alignment_strings s1 s2 c ins_del_char =
      some (ps.map Prod.fst, ps.map Prod.snd) := by
    unfold alignment_strings
    rw [hpath]
    dsimp only
    rw [hps]
  rw [heq] at hout
  simp only [Option.some.injEq, Prod.mk.injEq] at hout
  obtain ⟨h1, h2⟩ := hout
  subst h1
  subst h2
  have hzip : (ps.map Prod.fst).zip (ps.map Prod.snd) = ps := by
    rw [List.zip_map']
    simp
  rw [hzip]
  have hc := hcost hph1 hph2 (s1.length, s2.length) hlast
  rw [pairCost_sum_eq] at hc
  have h00 : levenshtein_distance_recurrence_matrix s1 s2 c (0, 0).1 (0, 0).2 = 0 :=
    lev_matrix_zero_left s1 s2 c 0
  rw [h00] at hc
  unfold levenshtein_distance
  dsimp only at hc
  omega

/-- C3 as stated fails when the placeholder itself occurs in the inputs: for
`A = B = ["x"]`, cost 1 and placeholder `"x"`, the single aligned pair is a
zero-cost match, yet both sides equal the placeholder, so the accounting gives
`1` while the distance is `0`. -/
theorem c3_counterexample :
    alignment_strings ["x"] ["x"] 1 "x" = some (["x"], ["x"]) ∧
    placeholderCount "x" ((["x"] : List String).zip ["x"]) +
        1 * mismatchCount "x" ((["x"] : List String).zip ["x"]) ≠
      levenshtein_distance ["x"] ["x"] 1 := by
  refine ⟨by decide, by decide⟩

theorem c3_witness :
    placeholderCount " " ((["a", "b"] : List String).zip [" ", "b"]) +
        1 * mismatchCount " " ((["a", "b"] : List String).zip [" ", "b"]) =
      levenshtein_distance ["a", "b"] ["b"] 1 :=
  c3_roundtrip_cost ["a", "b"] ["b"] 1 " " (by decide) (by decide) ["a", "b"] [" ", "b"]
    (by decide)

theorem firstMatchLen_bounds (d : List (List α)) (s : List α) :
    ∀ k i, firstMatchLen d s k = some i → 1 ≤ i ∧ i ≤ k := by
  intro k
  induction k with
  | zero => intro i h; cases h
  | succ k ih =>
    intro i h
    unfold firstMatchLen at h
    split_ifs at h with hmem
    · simp only [Option.some.injEq] at h
      omega
    · have := ih i h
      omega

theorem maxMatchFuel_irrel (space : α) (d : List (List α)) :
    ∀ fuel s, s.length ≤ fuel →
      maxMatchFuel space d fuel s = maxMatchFuel space d s.length s := by
  intro fuel
  induction fuel using Nat.strong_induction_on with
  | _ fuel ih =>
    intro s hs
    match fuel, s with
    | fuel, [] => cases fuel <;> rfl
    | 0, a :: t => exact absurd hs (by simp)
    | f + 1, a :: t =>
      simp only [List.length_cons] at hs
      simp only [List.length_cons, maxMatchFuel,
        if_neg (List.cons_ne_nil a t)]
      cases hm : firstMatchLen d (a :: t) (t.length + 1) with
      | some k =>
        obtain ⟨hk1, hk2⟩ := firstMatchLen_bounds d (a :: t) (t.length + 1) k hm
        have hd : ((a :: t).drop k).length ≤ t.length := by
          simp only [List.length_drop, List.length_cons]
          omega
        dsimp only
        congr 1
        rw [ih f (by omega) _ (le_trans hd (by omega)),
          ih t.length (by omega) _ hd]
      | none =>
        have hd : ((a :: t).drop 1).length ≤ t.length := by
          simp only [List.length_drop, List.length_cons]
          omega
        dsimp only
        congr 1
        rw [ih f (by omega) _ (le_trans hd (by omega)),
          ih t.length (by omega) _ hd]

/-- Unfolding of `max_match` when some prefix matches. -/
theorem max_match_matched (d : List (List String)) (s : List String) (k : Nat)
    (hs : s ≠ []) (hm : firstMatchLen d s s.length = some k) :
    max_match d s =
      (s.take k ++ if s.drop k = [] then [] else [" "]) ++ max_match d (s.drop k) := by
  obtain ⟨a, t, rfl⟩ := List.exists_cons_of_ne_nil hs
  obtain ⟨hk1, hk2⟩ := firstMatchLen_bounds d (a :: t) _ k hm
  simp only [List.length_cons] at hm hk2
  unfold max_match
  conv =>
    lhs
    simp only [List.length_cons, maxMatchFuel, if_neg (List.cons_ne_nil a t)]
  rw [hm]
  dsimp only
  congr 1
  rw [maxMatchFuel_irrel " " d t.length _ (by simp only [List.length_drop, List.length_cons]; omega)]

/-- Unfolding of `max_match` when no prefix matches: single-grapheme fallback. -/
theorem max_match_fallback (d : List (List String)) (s : List String)
    (hs : s ≠ []) (hm : firstMatchLen d s s.length = none) :
    max_match d s =
      (s.take 1 ++ if s.drop 1 = [] then [] else [" "]) ++ max_match d (s.drop 1) := by
  obtain ⟨a, t, rfl⟩ := List.exists_cons_of_ne_nil hs
  simp only [List.length_cons] at hm
  unfold max_match
  conv =>
    lhs
    simp only [List.length_cons, maxMatchFuel, if_neg (List.cons_ne_nil a t)]
  rw [hm]
  dsimp only
  rw [maxMatchFuel_irrel " " d t.length (List.drop 1 (a :: t))
    (by simp only [List.length_drop, List.length_cons]; omega)]

theorem firstMatchLen_none_iff (d : List (List α)) (s : List α) :
    ∀ k, firstMatchLen d s k = none ↔ ∀ i, 1 ≤ i → i ≤ k → s.take i ∉ d := by
  intro k
  induction k with
  | zero =>
    constructor
    · intro _ i h1 h2
      omega
    · intro _
      rfl
  | succ k ih =>
    constructor
    · intro h i h1 h2
      unfold firstMatchLen at h
      split_ifs at h with hmem
      rcases Nat.lt_or_ge i (k + 1) with hik | hik
      · exact (ih.mp h) i h1 (by omega)
      · have : i = k + 1 := by omega
        subst this
        exact hmem
    · intro h
      unfold firstMatchLen
      rw [if_neg (h (k + 1) (by omega) le_rfl)]
      exact ih.mpr fun i h1 h2 => h i h1 (by omega)

theorem firstMatchLen_some_spec (d : List (List α)) (s : List α) :
    ∀ k i, firstMatchLen d s k = some i →
      s.take i ∈ d ∧ ∀ j, i < j → j ≤ k → s.take j ∉ d := by
  intro k
  induction k with
  | zero => intro i h; cases h
  | succ k ih =>
    intro i h
    unfold firstMatchLen at h
    split_ifs at h with hmem
    · simp only [Option.some.injEq] at h
      subst h
      exact ⟨hmem, fun j hj1 hj2 => by omega⟩
    · obtain ⟨h1, h2⟩ := ih i h
      refine ⟨h1, fun j hj1 hj2 => ?_⟩
      rcases Nat.lt_or_ge j (k + 1) with hjk | hjk
      · exact h2 j hj1 (by omega)
      · have : j = k + 1 := by omega
        subst this
        exact hmem

theorem firstMatchLen_some_intro (d : List (List α)) (s : List α) :
    ∀ k i, 1 ≤ i → i ≤ k → s.take i ∈ d → (∀ j, i < j → j ≤ k → s.take j ∉ d) →
      firstMatchLen d s k = some i := by
  intro k
  induction k with
  | zero => intro i h1 h2; omega
  | succ k ih =>
    intro i h1 h2 hmem hno
    unfold firstMatchLen
    rcases Nat.lt_or_ge i (k + 1) with hik | hik
    · rw [if_neg (hno (k + 1) (by omega) le_rfl)]
      exact ih i h1 (by omega) hmem fun j hj1 hj2 => hno j hj1 (by omega)
    · have : i = k + 1 := by omega
      subst this
      rw [if_pos hmem]

/-- C6: `max_match` is the greedy longest-prefix-first segmentation: empty
input yields empty output; a non-empty input whose longest dictionary prefix
has length `k` emits that prefix, a single space when a remainder is left, and
the recursive segmentation of the remainder; when no prefix of any length is
in the dictionary the single first grapheme is the fallback token.  In
particular the repository's two test sentences segment as recorded in
`max_match_test`. -/
theorem c6_max_match_greedy :
    (∀ d : List (List String), max_match d [] = []) ∧
    (∀ (d : List (List String)) (s : List String) (k : Nat), s ≠ [] →
      1 ≤ k → k ≤ s.length → s.take k ∈ d →
      (∀ j, k < j → j ≤ s.length → s.take j ∉ d) →
      max_match d s =
        (s.take k ++ if s.drop k = [] then [] else [" "]) ++ max_match d (s.drop k)) ∧
    (∀ (d : List (List String)) (s : List String), s ≠ [] →
      (∀ j, 1 ≤ j → j ≤ s.length → s.take j ∉ d) →
      max_match d s =
        (s.take 1 ++ if s.drop 1 = [] then [] else [" "]) ++ max_match d (s.drop 1)) ∧
    max_match chineseDictionary ["他", "特", "别", "喜", "欢", "北", "京", "烤", "鸭"] =
      ["他", " ", "特", "别", " ", "喜", "欢", " ", "北", "京", "烤", "鸭"] ∧
    max_match chineseDictionary ["e", "n", "g", "l", "i", "s", "h"] =
      ["e", " ", "n", " ", "g", " ", "l", " ", "i", " ", "s", " ", "h"] := by
  refine ⟨fun d => rfl, ?_, ?_, by decide, by decide⟩
  · intro d s k hs hk1 hk2 hmem hno
    exact max_match_matched d s k hs (firstMatchLen_some_intro d s s.length k hk1 hk2 hmem hno)
  · intro d s hs hno
    exact max_match_fallback d s hs ((firstMatchLen_none_iff d s s.length).mpr hno)

theorem c6_witness :
    max_match chineseDictionary ["他"] = ["他"] :=
  (c6_max_match_greedy.2.1 chineseDictionary ["他"] 1 (by decide) (by decide) (by decide)
    (by decide) (fun j h1 h2 => absurd (Nat.lt_of_lt_of_le h1 h2) (by decide))).trans
    (by decide)

/-- Content preservation of the segmenter when the input contains no space
grapheme: removing the space separators from the output restores the input. -/
theorem max_match_filter (d : List (List String)) :
    ∀ n (s : List String), s.length ≤ n → " " ∉ s →
      (max_match d s).filter (fun g => g ≠ " ") = s := by
  intro n
  induction n with
  | zero =>
    intro s hlen _
    have hs : s = [] := List.eq_nil_of_length_eq_zero (by omega)
    subst hs
    rfl
  | succ n ih =>
    intro s hlen hsp
    by_cases hs : s = []
    · subst hs
      rfl
    · have hfilter : ∀ k, (s.take k).filter (fun g => g ≠ " ") = s.take k := by
        intro k
        refine List.filter_eq_self.mpr fun a ha => ?_
        have ha' : a ∈ s := List.mem_of_mem_take ha
        have hne : a ≠ " " := fun h => hsp (h ▸ ha')
        simpa using hne
      have hrec : ∀ k, 1 ≤ k → k ≤ s.length →
          ((s.take k ++ if s.drop k = [] then [] else [" "]) ++
              max_match d (s.drop k)).filter (fun g => g ≠ " ") = s := by
        intro k hk1 hk2
        rw [List.filter_append, List.filter_append, hfilter k]
        have hsep : (if s.drop k = [] then ([] : List String) else [" "]).filter
            (fun g => g ≠ " ") = [] := by
          split_ifs <;> rfl
        have hdrop : (max_match d (s.drop k)).filter (fun g => g ≠ " ") = s.drop k := by
          refine ih (s.drop k) ?_ fun hmem => hsp (List.drop_subset k s hmem)
          have : s.length ≥ 1 := by
            cases s
            · exact absurd rfl hs
            · simp
          simp only [List.length_drop]
          omega
        rw [hsep, hdrop]
        simp [List.take_append_drop]
      cases hm : firstMatchLen d s s.length with
      | some k =>
        obtain ⟨hk1, hk2⟩ := firstMatchLen_bounds d s s.length k hm
        rw [max_match_matched d s k hs hm]
        exact hrec k hk1 hk2
      | none =>
        rw [max_match_fallback d s hs hm]
        refine hrec 1 le_rfl ?_
        cases s
        · exact absurd rfl hs
        · simp

/-- C7 as stated fails when the input itself contains the space grapheme: the
single-grapheme input `[" "]` segments to `[" "]`, and removing spaces yields
`[]`, not the input. -/
theorem c7_counterexample :
    (max_match [] [" "]).filter (fun g => g ≠ " ") ≠ [" "] := by decide

/-- C7 (amended): for every dictionary and every input grapheme sequence that
contains no space element, concatenating the segmenter's output with all space
placeholders removed reproduces the original input exactly. -/
theorem c7_content_preservation (d : List (List String)) (s : List String)
    (hsp : " " ∉ s) :
    (max_match d s).filter (fun g => g ≠ " ") = s :=
  max_match_filter d s.length s le_rfl hsp

theorem c7_witness :
    (max_match [["a", "b"]] ["a", "b"]).filter (fun g => g ≠ " ") = ["a", "b"] :=
  c7_content_preservation [["a", "b"]] ["a", "b"] (by decide)

/-- The output of `max_match` on a non-empty space-free input is non-empty. -/
theorem max_match_ne_nil (d : List (List String)) (s : List String)
    (hs : s ≠ []) (hsp : " " ∉ s) : max_match d s ≠ [] := by
  intro hnil
  have h := max_match_filter d s.length s le_rfl hsp
  rw [hnil] at h
  exact hs h.symm

theorem chain_of_no_space {l : List String} (h : ∀ a ∈ l, a ≠ " ") :
    List.Chain' (fun a b => a ≠ " " ∨ b ≠ " ") l :=
  (List.pairwise_of_forall_mem_list fun a ha b _ => Or.inl (h a ha)).chain'

/-- C10: on any space-free input, the segmenter's output never begins or ends
with the space placeholder and never contains two consecutive spaces. -/
theorem c10_spaces_single_separators (d : List (List String)) (s : List String)
    (hsp : " " ∉ s) :
    (max_match d s).head? ≠ some " " ∧
    (max_match d s).getLast? ≠ some " " ∧
    List.Chain' (fun a b => a ≠ " " ∨ b ≠ " ") (max_match d s) := by
  have main : ∀ n (s : List String), s.length ≤ n → " " ∉ s →
      (max_match d s).head? ≠ some " " ∧
      (max_match d s).getLast? ≠ some " " ∧
      List.Chain' (fun a b => a ≠ " " ∨ b ≠ " ") (max_match d s) := by
    intro n
    induction n with
    | zero =>
      intro s hlen _
      have hs : s = [] := List.eq_nil_of_length_eq_zero (by omega)
      subst hs
      exact ⟨by simp [max_match, maxMatchFuel], by simp [max_match, maxMatchFuel],
        by simp [max_match, maxMatchFuel]⟩
    | succ n ih =>
      intro s hlen hsp
      by_cases hs : s = []
      · subst hs
        exact ⟨by simp [max_match, maxMatchFuel], by simp [max_match, maxMatchFuel],
          by simp [max_match, maxMatchFuel]⟩
      · have hslen : 1 ≤ s.length := by
          cases s
          · exact absurd rfl hs
          · simp
        have hrec : ∀ k, 1 ≤ k → k ≤ s.length →
            max_match d s =
              (s.take k ++ if s.drop k = [] then [] else [" "]) ++ max_match d (s.drop k) →
            (max_match d s).head? ≠ some " " ∧
            (max_match d s).getLast? ≠ some " " ∧
            List.Chain' (fun a b => a ≠ " " ∨ b ≠ " ") (max_match d s) := by
          intro k hk1 hk2 hunfold
          have htake : ∀ a ∈ s.take k, a ≠ " " :=
            fun a ha h => hsp (h ▸ List.mem_of_mem_take ha)
          have htakene : s.take k ≠ [] := by
            intro h
            have := congrArg List.length h
            simp only [List.length_take, List.length_nil] at this
            omega
          obtain ⟨b, w, hbw⟩ := List.exists_cons_of_ne_nil htakene
          have hb : b ≠ " " := htake b (hbw ▸ List.mem_cons_self b w)
          by_cases hd : s.drop k = []
          · rw [hunfold, hd]
            have hmm : max_match d ([] : List String) = [] := rfl
            rw [if_pos rfl, hmm, List.append_nil, List.append_nil]
            refine ⟨?_, ?_, chain_of_no_space htake⟩
            · rw [hbw]
              simp only [List.head?_cons, ne_eq, Option.some.injEq]
              exact hb
            · intro h
              exact htake _ (List.mem_of_getLast?_eq_some h) rfl
          · have hdsp : " " ∉ s.drop k := fun hmem => hsp (List.drop_subset k s hmem)
            have hdlen : (s.drop k).length ≤ n := by
              simp only [List.length_drop]
              omega
            obtain ⟨ihh, ihl, ihc⟩ := ih (s.drop k) hdlen hdsp
            have hone : max_match d (s.drop k) ≠ [] := max_match_ne_nil d (s.drop k) hd hdsp
            rw [hunfold, if_neg hd]
            refine ⟨?_, ?_, ?_⟩
            · rw [hbw]
              simp only [List.cons_append, List.head?_cons, ne_eq, Option.some.injEq]
              exact hb
            · obtain ⟨x, hx⟩ := Option.isSome_iff_exists.mp
                (List.getLast?_isSome.mpr hone)
              rw [List.getLast?_append, hx, Option.or_some]
              rw [hx] at ihl
              exact ihl
            · rw [List.chain'_append]
              refine ⟨?_, ihc, ?_⟩
              · rw [List.chain'_append]
                refine ⟨chain_of_no_space htake, List.chain'_singleton _, ?_⟩
                intro x hx y hy
                exact Or.inl (htake x (List.mem_of_getLast?_eq_some hx))
              · intro x hx y hy
                refine Or.inr fun hy' => ihh ?_
                rw [Option.mem_def] at hy
                exact hy' ▸ hy
        cases hm : firstMatchLen d s s.length with
        | some k =>
          obtain ⟨hk1, hk2⟩ := firstMatchLen_bounds d s s.length k hm
          exact hrec k hk1 hk2 (max_match_matched d s k hs hm)
        | none =>
          exact hrec 1 le_rfl hslen (max_match_fallback d s hs hm)
  exact main s.length s le_rfl hsp

theorem c10_witness : (max_match [] ["a"]).head? ≠ some " " :=
  (c10_spaces_single_separators [] ["a"] (by decide)).1

theorem splitOnSpace_length_pos : ∀ l : List String, 0 < (splitOnSpace l).length := by
  intro l
  induction l with
  | nil => simp [splitOnSpace]
  | cons g rest ih =>
    unfold splitOnSpace
    split_ifs
    · simp
    · cases h : splitOnSpace rest <;> simp

/-- C8 as stated fails on the code: splitting an empty sentence on the space
grapheme yields one empty word, so the reference word count — the denominator
of `word_error_rate` — is `1`, not `0`. -/
theorem c8_counterexample :
    splitOnSpace [] = [[]] ∧ (splitOnSpace []).length ≠ 0 :=
  ⟨rfl, by decide⟩

/-- C8 (amended): the denominator of `word_error_rate` — the number of words
the actual sentence splits into — is never zero (an empty actual sentence
splits into one empty word), so the division is never a division by zero and
the quotient satisfies the expected algebraic identity. -/
theorem c8_wer_denominator_never_zero (actual predicted : List String) :
    (splitOnSpace actual).length ≠ 0 ∧
    (actual = [] → splitOnSpace actual = [[]]) ∧
    word_error_rate actual predicted * ((splitOnSpace actual).length : ℚ) =
      (levenshtein_distance (splitOnSpace actual) (splitOnSpace predicted) 1 : ℚ) := by
  have hpos := splitOnSpace_length_pos actual
  refine ⟨by omega, ?_, ?_⟩
  · intro h
    subst h
    rfl
  · unfold word_error_rate
    rw [div_mul_cancel₀]
    exact Nat.cast_ne_zero.mpr (by omega)

theorem c8_witness : splitOnSpace ([] : List String) = [[]] :=
  (c8_wer_denominator_never_zero [] []).2.1 rfl
